import Mathlib

/-!
Verification of `mediapipe/model_maker/python/vision/face_stylizer/dataset.py`.

The file under study loads a directory of labeled face images, aligns each
face with a pretrained face-alignment model, and packages the results into a
paired (image, label) dataset.  We embed the two functions of the file,
`_preprocess_face_dataset` and `Dataset.from_folder`, shallowly:

* the filesystem interaction is abstracted into a `DirEnv` record holding the
  observed results of `tf.io.gfile.glob(data_root + '/*/*')`,
  `os.listdir(data_root)` and the `os.path.isdir` test on each entry;
* the face aligner is an abstract function `align : String → T` from image
  paths to tensors (the tensor type `T` is a parameter);
* exceptions are modelled with `Except`: the two explicit `raise ValueError`
  statements and the potential `KeyError` of the `index_by_label[...]` dict
  subscript;
* to capture evaluation order ("no image is preprocessed before the checks"),
  `from_folder` also returns the list of paths that were fed to the aligner.

`os.path.basename`, `os.path.dirname` (posix semantics) and Python's
`dict`/`str.endswith` are external library functions; they are embedded with
their documented standard semantics.
-/

namespace FaceStylizer

/-- The observed filesystem state that `Dataset.from_folder` interacts with:
the paths produced (in order) by the glob `data_root + '/*/*'`, the entries
returned by `os.listdir(data_root)`, and the `os.path.isdir` test on each
listed entry. -/
structure DirEnv where
  globPaths : List String
  listdir : List String
  isdir : String → Bool

/-- Python `fname.endswith(('.jpg', '.jpeg', '.png'))`: the string ends with
one of the three suffixes (checked on the character sequence). -/
def hasImageExt (fname : String) : Bool :=
  [".jpg", ".jpeg", ".png"].any (fun suf => suf.toList.isSuffixOf fname.toList)

/-- `_preprocess_face_dataset`: the sequential loop appending the aligned
tensor of each input path to an accumulator list. -/
def preprocess_face_dataset {T : Type} (align : String → T)
    (all_image_paths : List String) : List T :=
  all_image_paths.foldl (fun acc p => acc ++ [align p]) []

/-- `os.path.basename` with posix semantics: the part of the path after the
last slash (the whole path when there is no slash). -/
def basename (p : String) : String :=
  String.mk ((p.toList.reverse.takeWhile (fun c => c ≠ '/')).reverse)

/-- `os.path.dirname` with posix semantics: the part before the last slash,
with trailing slashes stripped unless the head consists only of slashes. -/
def dirname (p : String) : String :=
  let revHead := p.toList.reverse.dropWhile (fun c => c ≠ '/')
  if revHead.all (fun c => c = '/') then String.mk revHead.reverse
  else String.mk ((revHead.dropWhile (fun c => c = '/')).reverse)

/-- `os.path.basename(os.path.dirname(path))`: the name of the path's parent
directory, as computed in `from_folder`. -/
def parent_name (p : String) : String :=
  basename (dirname p)

/-- Lookup in a Python `dict` built from a list of key/value pairs: later
pairs override earlier ones, and a missing key yields `none` (a `KeyError`
at the call site). -/
def dict_lookup (pairs : List (String × Nat)) (k : String) : Option Nat :=
  (pairs.reverse.find? (fun q => q.1 == k)).map Prod.snd

/-- `((name, index) for index, name in enumerate(label_names))`. -/
def enum_pairs (names : List String) : List (String × Nat) :=
  names.enum.map (fun q => (q.2, q.1))

/-- `label_names = sorted(name for name in os.listdir(data_root) if
os.path.isdir(os.path.join(data_root, name)))`: the listed entries that are
directories, sorted lexicographically. -/
def label_names_of (env : DirEnv) : List String :=
  (env.listdir.filter env.isdir).mergeSort (fun a b => decide (a ≤ b))

/-- `index_by_label = dict((name, index) for index, name in
enumerate(label_names))`, as a lookup function. -/
def index_by_label_of (env : DirEnv) : String → Option Nat :=
  dict_lookup (enum_pairs (label_names_of env))

/-- The list comprehension `[index_by_label[...] for path in paths]`: looks
every key up in order and raises `KeyError` (here: `Except.error` with the
offending key) at the first missing one. -/
def lookup_labels (d : String → Option Nat) : List String → Except String (List Nat)
  | [] => Except.ok []
  | k :: ks =>
    match d k with
    | none => Except.error k
    | some v => (lookup_labels d ks).map (fun vs => v :: vs)

/-- The errors `from_folder` can raise: its two explicit `ValueError`s and
the `KeyError` of the dict subscript. -/
inductive LoadError where
  | valueError (msg : String)
  | keyError (key : String)
deriving DecidableEq

/-- The `ClassificationDataset` the function returns: the zipped
(image, label) pairs, the `size` field and the `label_names` field. -/
structure ClassificationDataset (T : Type) where
  dataset : List (T × Nat)
  size : Nat
  label_names : List String

/-- `Dataset.from_folder`.  Returns the result (dataset or raised error)
together with the list of paths that were passed to the face aligner, in
order, which is empty exactly when the function raises before preprocessing.
Mirrors the source: glob, emptiness check, extension check, preprocessing of
all globbed paths, label-name listing/sorting/indexing, per-path label
lookup, and zipping images with labels. -/
def from_folder {T : Type} (align : String → T) (env : DirEnv) :
    Except LoadError (ClassificationDataset T) × List String :=
  if env.globPaths.length = 0 then
    (Except.error (LoadError.valueError "Invalid input data directory"), [])
  else if env.globPaths.any hasImageExt = false then
    (Except.error (LoadError.valueError "No images found under given directory"), [])
  else
    match lookup_labels (index_by_label_of env) (env.globPaths.map parent_name) with
    | Except.error k => (Except.error (LoadError.keyError k), env.globPaths)
    | Except.ok all_image_labels =>
      (Except.ok
        { dataset := (preprocess_face_dataset align env.globPaths).zip all_image_labels
          size := env.globPaths.length
          label_names := label_names_of env },
       env.globPaths)

/-- The precondition that the glob result is consistent with a real directory
tree unchanged between the `glob` and `listdir` calls: every globbed path is
`root/s/f` for a slash-free nonempty subdirectory name `s` that `listdir`
returns and `isdir` accepts, and a slash-free nonempty file name `f`. -/
def consistent (root : String) (env : DirEnv) : Prop :=
  ∀ p ∈ env.globPaths, ∃ s f : String,
    s ∈ env.listdir ∧ env.isdir s = true ∧
    s.toList ≠ [] ∧ f.toList ≠ [] ∧
    (∀ c ∈ s.toList, c ≠ '/') ∧ (∀ c ∈ f.toList, c ≠ '/') ∧
    p = root ++ "/" ++ s ++ "/" ++ f

/-! ### Helper lemmas -/

theorem foldl_append_eq_map {T : Type} (align : String → T) :
    ∀ (ps : List String) (acc : List T),
      ps.foldl (fun a p => a ++ [align p]) acc = acc ++ ps.map align := by
  intro ps
  induction ps with
  | nil => intro acc; simp
  | cons p ps ih => intro acc; simp [List.foldl_cons, ih]

theorem preprocess_eq_map {T : Type} (align : String → T) (ps : List String) :
    preprocess_face_dataset align ps = ps.map align := by
  simpa [preprocess_face_dataset] using foldl_append_eq_map align ps []

theorem dropWhile_append_of_all {α : Type} (p : α → Bool) (l₁ l₂ : List α)
    (h : ∀ a ∈ l₁, p a = true) :
    (l₁ ++ l₂).dropWhile p = l₂.dropWhile p := by
  induction l₁ with
  | nil => simp
  | cons a l ih =>
    have ha : p a = true := h a (by simp)
    simp [List.dropWhile_cons, ha]
    exact ih (fun b hb => h b (by simp [hb]))

theorem takeWhile_append_of_all {α : Type} (p : α → Bool) (l₁ l₂ : List α)
    (h : ∀ a ∈ l₁, p a = true) :
    (l₁ ++ l₂).takeWhile p = l₁ ++ l₂.takeWhile p := by
  induction l₁ with
  | nil => simp
  | cons a l ih =>
    have ha : p a = true := h a (by simp)
    simp [List.takeWhile_cons, ha]
    exact ih (fun b hb => h b (by simp [hb]))

theorem toList_mk (cs : List Char) : (String.mk cs).toList = cs := rfl

theorem toList_append (a b : String) : (a ++ b).toList = a.toList ++ b.toList :=
  String.data_append a b

/-- The central path lemma: for slash-free nonempty `s` and `f`,
the parent-directory name of `r ++ "/" ++ s ++ "/" ++ f` is `s`. -/
theorem parent_name_concat (r s f : String)
    (hs : s.toList ≠ []) (_hf : f.toList ≠ [])
    (hsl : ∀ c ∈ s.toList, c ≠ '/') (hfl : ∀ c ∈ f.toList, c ≠ '/') :
    parent_name (r ++ "/" ++ s ++ "/" ++ f) = s := by
  have hdata : (r ++ "/" ++ s ++ "/" ++ f).toList
      = r.toList ++ '/' :: s.toList ++ '/' :: f.toList := by
    simp [toList_append]
  have hrev : (r ++ "/" ++ s ++ "/" ++ f).toList.reverse
      = f.toList.reverse ++ '/' :: (s.toList.reverse ++ '/' :: r.toList.reverse) := by
    simp [hdata]
  -- the reversed head obtained by dropping the file-name characters
  have hdrop : ((r ++ "/" ++ s ++ "/" ++ f).toList.reverse.dropWhile
        (fun c => c ≠ '/'))
      = '/' :: (s.toList.reverse ++ '/' :: r.toList.reverse) := by
    rw [hrev, dropWhile_append_of_all]
    · simp [List.dropWhile_cons]
    · intro a ha
      simpa using hfl a (by simpa using ha)
  -- the dirname is r ++ "/" ++ s
  obtain ⟨c₀, cs₀, hcs⟩ : ∃ c₀ cs₀, s.toList.reverse = c₀ :: cs₀ := by
    rcases h : s.toList.reverse with _ | ⟨c₀, cs₀⟩
    · exact absurd (by simpa using h) hs
    · exact ⟨c₀, cs₀, rfl⟩
  have hc₀ : c₀ ≠ '/' := by
    have hmem : c₀ ∈ s.toList.reverse := by rw [hcs]; simp
    exact hsl c₀ (List.mem_reverse.mp hmem)
  have hnotall : (('/' :: (s.toList.reverse ++ '/' :: r.toList.reverse)).all
        (fun c => c = '/')) = false := by
    rw [Bool.eq_false_iff]
    intro hall
    rw [List.all_eq_true] at hall
    have := hall c₀ (by rw [hcs]; simp)
    exact hc₀ (by simpa using this)
  have hdropSlash : (('/' :: (s.toList.reverse ++ '/' :: r.toList.reverse)).dropWhile
        (fun c => c = '/'))
      = s.toList.reverse ++ '/' :: r.toList.reverse := by
    rw [List.dropWhile_cons]
    simp only [decide_eq_true_eq, if_pos rfl]
    rw [hcs]
    rw [List.cons_append, List.dropWhile_cons]
    simp [hc₀]
  have hdir : dirname (r ++ "/" ++ s ++ "/" ++ f) = r ++ "/" ++ s := by
    rw [dirname]
    simp only [hdrop, hnotall, Bool.false_eq_true, if_false, hdropSlash]
    apply String.ext
    show (s.toList.reverse ++ '/' :: r.toList.reverse).reverse
        = (r ++ "/" ++ s).data
    simp [String.data_append]
  have hpar : parent_name (r ++ "/" ++ s ++ "/" ++ f) = basename (r ++ "/" ++ s) := by
    rw [parent_name, hdir]
  rw [hpar, basename]
  have hrev₂ : (r ++ "/" ++ s).toList.reverse
      = s.toList.reverse ++ '/' :: r.toList.reverse := by
    simp [toList_append]
  rw [hrev₂, takeWhile_append_of_all _ _ _
    (by intro a ha; simpa using hsl a (by simpa using ha))]
  rw [List.takeWhile_cons]
  rw [if_neg (by simp)]
  apply String.ext
  show (s.toList.reverse ++ []).reverse = s.data
  simp

theorem mem_enum_pairs {names : List String} {k : String} {i : ℕ} :
    (k, i) ∈ enum_pairs names ↔ names[i]? = some k := by
  rw [enum_pairs, List.mem_map]
  constructor
  · rintro ⟨⟨j, n⟩, hmem, heq⟩
    have hn : n = k := congrArg Prod.fst heq
    have hj : j = i := congrArg Prod.snd heq
    subst hn; subst hj
    exact List.mk_mem_enum_iff_getElem?.mp hmem
  · intro h
    exact ⟨(i, k), List.mk_mem_enum_iff_getElem?.mpr h, rfl⟩

/-- Soundness of the dict built by `enumerate`: a successful lookup returns a
valid index whose entry in `names` is the key itself. -/
theorem index_by_label_sound {names : List String} {k : String} {i : ℕ}
    (h : dict_lookup (enum_pairs names) k = some i) :
    ∃ hlt : i < names.length, names.get ⟨i, hlt⟩ = k := by
  rw [dict_lookup] at h
  rcases hfind : (enum_pairs names).reverse.find? (fun q => q.1 == k) with _ | q
  · rw [hfind] at h; simp at h
  · rw [hfind] at h
    have hq2 : q.2 = i := by simpa using h
    have hq1 : q.1 = k := by simpa using List.find?_some hfind
    have hqmem : q ∈ enum_pairs names :=
      List.mem_reverse.mp (List.mem_of_find?_eq_some hfind)
    have : (k, i) ∈ enum_pairs names := by
      rw [← hq1, ← hq2]
      exact hqmem
    have hget := mem_enum_pairs.mp this
    rw [List.getElem?_eq_some] at hget
    obtain ⟨hlt, hv⟩ := hget
    exact ⟨hlt, by simpa [List.get_eq_getElem] using hv⟩

/-- Completeness of the dict: every name occurring in `names` has a binding. -/
theorem index_by_label_complete {names : List String} {k : String}
    (hk : k ∈ names) : ∃ i, dict_lookup (enum_pairs names) k = some i := by
  obtain ⟨i, hlt, hv⟩ := List.mem_iff_getElem.mp hk
  rcases hfind : (enum_pairs names).reverse.find? (fun q => q.1 == k) with _ | q
  · exfalso
    rw [List.find?_eq_none] at hfind
    have hmem : (k, i) ∈ enum_pairs names :=
      mem_enum_pairs.mpr (by rw [List.getElem?_eq_getElem hlt, hv])
    exact hfind (k, i) (List.mem_reverse.mpr hmem) (by simp)
  · exact ⟨q.2, by rw [dict_lookup, hfind]; rfl⟩

/-- With distinct names, the dict maps the `i`-th name to `i`. -/
theorem index_by_label_get {names : List String} (hnd : names.Nodup)
    {i : ℕ} (hlt : i < names.length) :
    dict_lookup (enum_pairs names) (names.get ⟨i, hlt⟩) = some i := by
  obtain ⟨j, hj⟩ := index_by_label_complete (List.get_mem names i hlt)
  obtain ⟨hjlt, hjv⟩ := index_by_label_sound hj
  have : (⟨j, hjlt⟩ : Fin names.length) = ⟨i, hlt⟩ :=
    (List.Nodup.get_inj_iff hnd).mp hjv
  rw [hj]
  exact congrArg some (congrArg Fin.val this)

/-- With distinct names, a successful lookup returns the first (there is only
one) occurrence index of the key. -/
theorem index_by_label_eq_indexOf {names : List String} (hnd : names.Nodup)
    {k : String} {i : ℕ}
    (h : dict_lookup (enum_pairs names) k = some i) :
    i = names.indexOf k := by
  obtain ⟨hlt, hv⟩ := index_by_label_sound h
  have hk : k ∈ names := hv ▸ List.get_mem names i hlt
  have hidx : List.indexOf k names < names.length := List.indexOf_lt_length.mpr hk
  have : names.get ⟨i, hlt⟩ = names.get ⟨List.indexOf k names, hidx⟩ := by
    rw [hv, List.indexOf_get]
  have := (List.Nodup.get_inj_iff hnd).mp this
  exact congrArg Fin.val this

theorem lookup_labels_ok_of_all (d : String → Option Nat) (ks : List String)
    (h : ∀ k ∈ ks, ∃ v, d k = some v) :
    ∃ vs, lookup_labels d ks = Except.ok vs := by
  induction ks with
  | nil => exact ⟨[], rfl⟩
  | cons k ks ih =>
    obtain ⟨v, hv⟩ := h k (by simp)
    obtain ⟨vs, hvs⟩ := ih (fun k hk => h k (by simp [hk]))
    exact ⟨v :: vs, by rw [lookup_labels, hv, hvs]; rfl⟩

theorem lookup_labels_spec (d : String → Option Nat) :
    ∀ (ks : List String) (vs : List Nat),
      lookup_labels d ks = Except.ok vs →
      vs.length = ks.length ∧
      ∀ i (hi : i < ks.length) (hv : i < vs.length),
        d (ks.get ⟨i, hi⟩) = some (vs.get ⟨i, hv⟩) := by
  intro ks
  induction ks with
  | nil =>
    intro vs h
    obtain rfl : vs = [] := by
      simpa [lookup_labels] using h
    exact ⟨rfl, fun i hi => by simp at hi⟩
  | cons k ks ih =>
    intro vs h
    rw [lookup_labels] at h
    rcases hd : d k with _ | v
    · rw [hd] at h; exact absurd h (by simp)
    · rw [hd] at h
      rcases hrec : lookup_labels d ks with e | vs'
      · rw [hrec] at h; exact absurd h (by simp [Except.map])
      · rw [hrec] at h
        have hvs : vs = v :: vs' := by
          simpa [Except.map] using h.symm
        subst hvs
        obtain ⟨hlen, hget⟩ := ih vs' hrec
        refine ⟨by simp [hlen], ?_⟩
        intro i hi hv
        cases i with
        | zero => simpa using hd
        | succ j =>
          have hj : j < ks.length := by simpa using hi
          have hjv : j < vs'.length := by simpa using hv
          simpa using hget j hj hjv

/-- When both checks pass and every label lookup succeeds, `from_folder`
returns the zipped dataset and reports all globbed paths as preprocessed. -/
theorem from_folder_ok {T : Type} (align : String → T) (env : DirEnv)
    (hne : env.globPaths ≠ [])
    (hext : env.globPaths.any hasImageExt = true)
    (vs : List Nat)
    (hvs : lookup_labels (index_by_label_of env) (env.globPaths.map parent_name)
      = Except.ok vs) :
    from_folder align env =
      (Except.ok
        { dataset := (env.globPaths.map align).zip vs
          size := env.globPaths.length
          label_names := label_names_of env },
       env.globPaths) := by
  rw [from_folder]
  rw [if_neg (by simpa [List.length_eq_zero] using hne)]
  rw [if_neg (by simp [hext])]
  rw [hvs]
  simp [preprocess_eq_map]

/-- Under the consistency precondition the parent-directory name of every
globbed path occurs among the sorted label names. -/
theorem parent_mem_label_names (root : String) (env : DirEnv)
    (hcons : consistent root env) {p : String} (hp : p ∈ env.globPaths) :
    parent_name p ∈ label_names_of env := by
  obtain ⟨s, f, hsmem, hsd, hsne, hfne, hslash, hfslash, hpe⟩ := hcons p hp
  have hps : parent_name p = s := by
    rw [hpe]; exact parent_name_concat root s f hsne hfne hslash hfslash
  rw [hps, label_names_of, List.mem_mergeSort]
  exact List.mem_filter.mpr ⟨hsmem, hsd⟩

/-- Under the consistency precondition every label lookup in `from_folder`
succeeds, with an index below the number of label names. -/
theorem consistent_lookup (root : String) (env : DirEnv)
    (hcons : consistent root env) {p : String} (hp : p ∈ env.globPaths) :
    ∃ i, index_by_label_of env (parent_name p) = some i ∧
      i < (label_names_of env).length := by
  have hmem := parent_mem_label_names root env hcons hp
  obtain ⟨i, hi⟩ := index_by_label_complete hmem
  obtain ⟨hlt, -⟩ := index_by_label_sound hi
  exact ⟨i, hi, hlt⟩

/-- Under the consistency precondition the whole label list comprehension
succeeds. -/
theorem consistent_lookup_all (root : String) (env : DirEnv)
    (hcons : consistent root env) :
    ∃ vs, lookup_labels (index_by_label_of env) (env.globPaths.map parent_name)
      = Except.ok vs := by
  apply lookup_labels_ok_of_all
  intro k hk
  obtain ⟨p, hp, rfl⟩ := List.mem_map.mp hk
  obtain ⟨i, hi, -⟩ := consistent_lookup root env hcons hp
  exact ⟨i, hi⟩

/-- With duplicate-free directory listings the sorted label names are
duplicate-free as well. -/
theorem label_names_nodup (env : DirEnv) (hnd : env.listdir.Nodup) :
    (label_names_of env).Nodup :=
  ((List.mergeSort_perm (env.listdir.filter env.isdir)
    (fun a b => decide (a ≤ b))).nodup_iff).mpr (hnd.filter env.isdir)

/-- The sorted label names are sorted. -/
theorem label_names_sorted (env : DirEnv) :
    (label_names_of env).Sorted (· ≤ ·) :=
  List.sorted_mergeSort' (env.listdir.filter env.isdir)

/-! ### Claim theorems -/

/-- C4: `_preprocess_face_dataset` returns exactly one preprocessed tensor
per input path, in the same order as the input sequence: the output length
equals the input length and the `i`-th output is the aligned tensor of the
`i`-th input path. -/
theorem C4_preprocess_one_tensor_per_path_in_order {T : Type}
    (align : String → T) (paths : List String) :
    (preprocess_face_dataset align paths).length = paths.length ∧
    ∀ i (hi : i < paths.length) (hp : i < (preprocess_face_dataset align paths).length),
      (preprocess_face_dataset align paths).get ⟨i, hp⟩ = align (paths.get ⟨i, hi⟩) := by
  constructor
  · simp [preprocess_eq_map]
  · intro i hi hp
    simp [preprocess_eq_map, List.get_eq_getElem, List.getElem_map]

/-- C4 witness: concrete instance with two paths. -/
theorem C4_witness :
    (preprocess_face_dataset (fun p => p ++ "!") ["a", "b"]).length = (["a", "b"] : List String).length ∧
    ∀ i (hi : i < (["a", "b"] : List String).length)
      (hp : i < (preprocess_face_dataset (fun p => p ++ "!") ["a", "b"]).length),
      (preprocess_face_dataset (fun p => p ++ "!") ["a", "b"]).get ⟨i, hp⟩
        = (fun p => p ++ "!") ((["a", "b"] : List String).get ⟨i, hi⟩) :=
  C4_preprocess_one_tensor_per_path_in_order (fun p => p ++ "!") ["a", "b"]

/-- C5: `from_folder` raises `ValueError` exactly when the glob yields no
path, or yields at least one path but none with a supported image extension;
in both cases nothing is preprocessed and no dataset is returned. -/
theorem C5_valueError_iff_empty_or_no_supported_ext {T : Type}
    (align : String → T) (env : DirEnv) :
    ((∃ msg, (from_folder align env).1 = Except.error (LoadError.valueError msg)) ↔
      (env.globPaths = [] ∨
        (env.globPaths ≠ [] ∧ env.globPaths.any hasImageExt = false))) ∧
    ((env.globPaths = [] ∨
        (env.globPaths ≠ [] ∧ env.globPaths.any hasImageExt = false)) →
      (from_folder align env).2 = [] ∧
      ∀ d : ClassificationDataset T, (from_folder align env).1 ≠ Except.ok d) := by
  by_cases hne : env.globPaths = []
  · rw [from_folder]
    rw [if_pos (by simp [hne])]
    constructor
    · constructor
      · intro _; exact Or.inl hne
      · intro _; exact ⟨"Invalid input data directory", rfl⟩
    · intro _
      exact ⟨rfl, fun d h => by simp at h⟩
  · by_cases hext : env.globPaths.any hasImageExt = false
    · rw [from_folder]
      rw [if_neg (by simpa [List.length_eq_zero] using hne)]
      rw [if_pos hext]
      constructor
      · constructor
        · intro _; exact Or.inr ⟨hne, hext⟩
        · intro _; exact ⟨"No images found under given directory", rfl⟩
      · intro _
        exact ⟨rfl, fun d h => by simp at h⟩
    · have hext' : env.globPaths.any hasImageExt = true := by
        cases h : env.globPaths.any hasImageExt with
        | false => exact absurd h hext
        | true => rfl
      rw [from_folder]
      rw [if_neg (by simpa [List.length_eq_zero] using hne)]
      rw [if_neg (by simp [hext'])]
      rcases hlk : lookup_labels (index_by_label_of env)
          (env.globPaths.map parent_name) with k | vs
      · constructor
        · constructor
          · rintro ⟨msg, hmsg⟩; simp at hmsg
          · rintro (h | ⟨-, h⟩)
            · exact absurd h hne
            · simp [hext'] at h
        · rintro (h | ⟨-, h⟩)
          · exact absurd h hne
          · simp [hext'] at h
      · constructor
        · constructor
          · rintro ⟨msg, hmsg⟩; simp at hmsg
          · rintro (h | ⟨-, h⟩)
            · exact absurd h hne
            · simp [hext'] at h
        · rintro (h | ⟨-, h⟩)
          · exact absurd h hne
          · simp [hext'] at h

/-- C6: once the any-exists extension check passes, every globbed path —
supported extension or not — is passed to the aligner, and any returned
dataset counts all of them in its size. -/
theorem C6_extension_check_is_not_a_filter {T : Type}
    (align : String → T) (env : DirEnv)
    (hne : env.globPaths ≠ [])
    (hext : env.globPaths.any hasImageExt = true) :
    (from_folder align env).2 = env.globPaths ∧
    ∀ d : ClassificationDataset T,
      (from_folder align env).1 = Except.ok d →
      d.size = env.globPaths.length := by
  rw [from_folder]
  rw [if_neg (by simpa [List.length_eq_zero] using hne)]
  rw [if_neg (by simp [hext])]
  rcases hlk : lookup_labels (index_by_label_of env)
      (env.globPaths.map parent_name) with k | vs
  · exact ⟨rfl, fun d h => by simp at h⟩
  · refine ⟨rfl, fun d h => ?_⟩
    have hd : d = { dataset := (preprocess_face_dataset align env.globPaths).zip vs
                    size := env.globPaths.length
                    label_names := label_names_of env } := by
      simpa using h.symm
    rw [hd]

/-- C1: for a directory whose glob yields at least one path and at least one
supported image path, `from_folder` returns a dataset that is the element-wise
zip of the aligned images with their parent-directory label indices, with
`size` equal to the number of globbed paths. -/
theorem C1_from_folder_zips_images_with_labels {T : Type} (align : String → T)
    (root : String) (env : DirEnv)
    (hcons : consistent root env)
    (hne : env.globPaths ≠ [])
    (hext : env.globPaths.any hasImageExt = true) :
    ∃ d : ClassificationDataset T,
      (from_folder align env).1 = Except.ok d ∧
      d.size = env.globPaths.length ∧
      d.dataset.length = env.globPaths.length ∧
      ∀ i (hi : i < env.globPaths.length) (hd : i < d.dataset.length),
        (d.dataset.get ⟨i, hd⟩).1 = align (env.globPaths.get ⟨i, hi⟩) ∧
        index_by_label_of env (parent_name (env.globPaths.get ⟨i, hi⟩))
          = some (d.dataset.get ⟨i, hd⟩).2 := by
  obtain ⟨vs, hvs⟩ := consistent_lookup_all root env hcons
  obtain ⟨hlen, hget⟩ := lookup_labels_spec (index_by_label_of env) _ _ hvs
  have hvlen : vs.length = env.globPaths.length := by simpa using hlen
  refine ⟨{ dataset := (env.globPaths.map align).zip vs
            size := env.globPaths.length
            label_names := label_names_of env }, ?_, rfl, ?_, ?_⟩
  · rw [from_folder_ok align env hne hext vs hvs]
  · simp [hvlen]
  · intro i hi hd
    have hzip : ((env.globPaths.map align).zip vs).get ⟨i, hd⟩
        = ((env.globPaths.map align).get ⟨i, by simpa using hi⟩,
           vs.get ⟨i, by rw [hvlen]; exact hi⟩) := by
      simp [List.get_eq_getElem, List.getElem_zip]
    constructor
    · rw [hzip]
      simp [List.get_eq_getElem, List.getElem_map]
    · have h := hget i (by simpa using hi) (by rw [hvlen]; exact hi)
      rw [hzip]
      simpa [List.get_eq_getElem, List.getElem_map] using h

/-- C2: under the same preconditions (with a duplicate-free directory
listing), the label assigned to each globbed path is the position of its
parent-directory name in the sorted label-name list. -/
theorem C2_label_is_position_of_parent_in_sorted_names {T : Type}
    (align : String → T) (root : String) (env : DirEnv)
    (hcons : consistent root env)
    (hnd : env.listdir.Nodup)
    (hne : env.globPaths ≠ [])
    (hext : env.globPaths.any hasImageExt = true) :
    ∃ d : ClassificationDataset T,
      (from_folder align env).1 = Except.ok d ∧
      d.dataset.length = env.globPaths.length ∧
      ∀ i (hi : i < env.globPaths.length) (hd : i < d.dataset.length),
        (d.dataset.get ⟨i, hd⟩).2
          = (label_names_of env).indexOf
              (parent_name (env.globPaths.get ⟨i, hi⟩)) := by
  obtain ⟨vs, hvs⟩ := consistent_lookup_all root env hcons
  obtain ⟨hlen, hget⟩ := lookup_labels_spec (index_by_label_of env) _ _ hvs
  have hvlen : vs.length = env.globPaths.length := by simpa using hlen
  refine ⟨{ dataset := (env.globPaths.map align).zip vs
            size := env.globPaths.length
            label_names := label_names_of env }, ?_, ?_, ?_⟩
  · rw [from_folder_ok align env hne hext vs hvs]
  · simp [hvlen]
  · intro i hi hd
    have h := hget i (by simpa using hi) (by rw [hvlen]; exact hi)
    have hkey : index_by_label_of env (parent_name (env.globPaths.get ⟨i, hi⟩))
        = some (vs.get ⟨i, by rw [hvlen]; exact hi⟩) := by
      simpa [List.get_eq_getElem, List.getElem_map] using h
    have := index_by_label_eq_indexOf (label_names_nodup env hnd) hkey
    have hzip : ((env.globPaths.map align).zip vs).get ⟨i, hd⟩
        = ((env.globPaths.map align).get ⟨i, by simpa using hi⟩,
           vs.get ⟨i, by rw [hvlen]; exact hi⟩) := by
      simp [List.get_eq_getElem, List.getElem_zip]
    rw [hzip]
    exact this

/-- C3: the label names are the lexicographically sorted immediate
subdirectory names; `index_by_label` sends the `i`-th sorted name to `i`, is
strictly monotone in the lexicographic order, and is a bijection from the
label names onto the indices below their count. -/
theorem C3_sorted_label_names_index_bijection (env : DirEnv)
    (hnd : env.listdir.Nodup) :
    (label_names_of env).Sorted (· ≤ ·) ∧
    (label_names_of env).Perm (env.listdir.filter env.isdir) ∧
    (∀ i (hi : i < (label_names_of env).length),
      index_by_label_of env ((label_names_of env).get ⟨i, hi⟩) = some i) ∧
    (∀ i j (hi : i < (label_names_of env).length)
        (hj : j < (label_names_of env).length),
      ((label_names_of env).get ⟨i, hi⟩ < (label_names_of env).get ⟨j, hj⟩ ↔ i < j)) ∧
    (∀ k i, index_by_label_of env k = some i →
      k ∈ label_names_of env ∧ i < (label_names_of env).length) ∧
    (∀ k₁ k₂ i, index_by_label_of env k₁ = some i →
      index_by_label_of env k₂ = some i → k₁ = k₂) ∧
    (∀ i, i < (label_names_of env).length →
      ∃ k ∈ label_names_of env, index_by_label_of env k = some i) := by
  have hsorted := label_names_sorted env
  have hnodup := label_names_nodup env hnd
  refine ⟨hsorted, List.mergeSort_perm _ _, ?_, ?_, ?_, ?_, ?_⟩
  · intro i hi
    exact index_by_label_get hnodup hi
  · intro i j hi hj
    constructor
    · intro hlt
      by_contra hij
      push_neg at hij
      rcases Nat.lt_or_ge j i with hji | hji
      · have hle : (label_names_of env).get ⟨j, hj⟩ ≤ (label_names_of env).get ⟨i, hi⟩ :=
          hsorted.rel_get_of_lt (by exact hji)
        exact absurd hlt (not_lt.mpr hle)
      · have : i = j := Nat.le_antisymm hji hij
        subst this
        exact lt_irrefl _ hlt
    · intro hij
      have hle : (label_names_of env).get ⟨i, hi⟩ ≤ (label_names_of env).get ⟨j, hj⟩ :=
        hsorted.rel_get_of_lt (by exact hij)
      have hne' : (label_names_of env).get ⟨i, hi⟩ ≠ (label_names_of env).get ⟨j, hj⟩ := by
        intro heq
        have := (List.Nodup.get_inj_iff hnodup).mp heq
        exact absurd (congrArg Fin.val this) (Nat.ne_of_lt hij)
      exact lt_of_le_of_ne hle hne'
  · intro k i h
    obtain ⟨hlt, hv⟩ := index_by_label_sound h
    exact ⟨hv ▸ List.get_mem _ i hlt, hlt⟩
  · intro k₁ k₂ i h₁ h₂
    obtain ⟨hlt₁, hv₁⟩ := index_by_label_sound h₁
    obtain ⟨hlt₂, hv₂⟩ := index_by_label_sound h₂
    rw [← hv₁, ← hv₂]
  · intro i hi
    exact ⟨(label_names_of env).get ⟨i, hi⟩, List.get_mem _ i hi,
      index_by_label_get hnodup hi⟩

/-- C7: under the consistency precondition (filesystem unchanged between the
glob and listdir calls), the parent-directory name of every globbed path has a
binding in `index_by_label`, so the lookup never fails, and every label in a
returned dataset lies below the number of label names. -/
theorem C7_label_lookup_never_fails (root : String) (env : DirEnv)
    (hcons : consistent root env) :
    (∀ p ∈ env.globPaths,
      ∃ i, index_by_label_of env (parent_name p) = some i ∧
        i < (label_names_of env).length) ∧
    ∀ (T : Type) (align : String → T) (d : ClassificationDataset T),
      (from_folder align env).1 = Except.ok d →
      ∀ x ∈ d.dataset, x.2 < (label_names_of env).length := by
  constructor
  · intro p hp
    exact consistent_lookup root env hcons hp
  · intro T align d hd x hx
    rw [from_folder] at hd
    by_cases hlen : env.globPaths.length = 0
    · rw [if_pos hlen] at hd; simp at hd
    · rw [if_neg hlen] at hd
      by_cases hext : env.globPaths.any hasImageExt = false
      · rw [if_pos hext] at hd; simp at hd
      · rw [if_neg hext] at hd
        rcases hlk : lookup_labels (index_by_label_of env)
            (env.globPaths.map parent_name) with k | vs
        · rw [hlk] at hd; simp at hd
        · rw [hlk] at hd
          have hdval : d = { dataset := (preprocess_face_dataset align env.globPaths).zip vs
                             size := env.globPaths.length
                             label_names := label_names_of env } := by
            simpa using hd.symm
          subst hdval
          have hx2 : x.2 ∈ vs := (List.of_mem_zip hx).2
          obtain ⟨j, hjlt, hjv⟩ := List.mem_iff_getElem.mp hx2
          obtain ⟨hlen', hget⟩ := lookup_labels_spec (index_by_label_of env) _ _ hlk
          have h := hget j (by rw [← hlen']; exact hjlt) hjlt
          obtain ⟨hlt, -⟩ := index_by_label_sound
            (by simpa [List.get_eq_getElem] using h)
          rw [← hjv]
          simpa [List.get_eq_getElem] using hlt

/-- C8: `from_folder` is deterministic in the observed filesystem state: two
runs seeing the same glob sequence, the same set of (duplicate-free)
subdirectory names, and path-wise equal alignment results produce identical
outcomes — same label names, same size, same (image, label) pairs, and the
same preprocessing trace. -/
theorem C8_deterministic_in_observed_state {T : Type}
    (align₁ align₂ : String → T) (env₁ env₂ : DirEnv)
    (hg : env₁.globPaths = env₂.globPaths)
    (hmem : ∀ s, s ∈ env₁.listdir.filter env₁.isdir
      ↔ s ∈ env₂.listdir.filter env₂.isdir)
    (hn₁ : (env₁.listdir.filter env₁.isdir).Nodup)
    (hn₂ : (env₂.listdir.filter env₂.isdir).Nodup)
    (ha : ∀ p ∈ env₁.globPaths, align₁ p = align₂ p) :
    from_folder align₁ env₁ = from_folder align₂ env₂ := by
  have hperm : (env₁.listdir.filter env₁.isdir).Perm (env₂.listdir.filter env₂.isdir) :=
    (List.perm_ext_iff_of_nodup hn₁ hn₂).mpr hmem
  have hln : label_names_of env₁ = label_names_of env₂ := by
    apply List.eq_of_perm_of_sorted (r := (· ≤ ·))
    · exact ((List.mergeSort_perm _ _).trans hperm).trans
        (List.mergeSort_perm _ _).symm
    · exact label_names_sorted env₁
    · exact label_names_sorted env₂
  have hidx : index_by_label_of env₁ = index_by_label_of env₂ := by
    rw [index_by_label_of, index_by_label_of, hln]
  have hpre : preprocess_face_dataset align₂ env₁.globPaths
      = preprocess_face_dataset align₁ env₁.globPaths := by
    rw [preprocess_eq_map, preprocess_eq_map]
    exact (List.map_congr_left ha).symm
  rw [from_folder, from_folder, ← hg, ← hidx, ← hln, hpre]

/-! ### Concrete environments for witnesses -/

/-- A concrete observed directory: root `/d` with subdirectories `a` and `b`,
two supported images and one unsupported file. -/
def envW : DirEnv where
  globPaths := ["/d/a/x.jpg", "/d/b/y.png", "/d/a/notes.txt"]
  listdir := ["b", "a"]
  isdir := fun _ => true

/-- The same directory observed with `os.listdir` returning the entries in
the opposite order. -/
def envW2 : DirEnv where
  globPaths := ["/d/a/x.jpg", "/d/b/y.png", "/d/a/notes.txt"]
  listdir := ["a", "b"]
  isdir := fun _ => true

theorem envW_consistent : consistent "/d" envW := by
  intro p hp
  have hp' : p = "/d/a/x.jpg" ∨ p = "/d/b/y.png" ∨ p = "/d/a/notes.txt" := by
    simpa [envW] using hp
  rcases hp' with rfl | rfl | rfl
  · exact ⟨"a", "x.jpg", by decide, rfl, by decide, by decide, by decide,
      by decide, by decide⟩
  · exact ⟨"b", "y.png", by decide, rfl, by decide, by decide, by decide,
      by decide, by decide⟩
  · exact ⟨"a", "notes.txt", by decide, rfl, by decide, by decide, by decide,
      by decide, by decide⟩

/-- C1 witness: the theorem instantiated at the concrete directory. -/
theorem C1_witness :
    ∃ d : ClassificationDataset Nat,
      (from_folder (fun _ => (0 : Nat)) envW).1 = Except.ok d ∧
      d.size = envW.globPaths.length ∧
      d.dataset.length = envW.globPaths.length ∧
      ∀ i (hi : i < envW.globPaths.length) (hd : i < d.dataset.length),
        (d.dataset.get ⟨i, hd⟩).1 = (fun _ => (0 : Nat)) (envW.globPaths.get ⟨i, hi⟩) ∧
        index_by_label_of envW (parent_name (envW.globPaths.get ⟨i, hi⟩))
          = some (d.dataset.get ⟨i, hd⟩).2 :=
  C1_from_folder_zips_images_with_labels (fun _ => (0 : Nat)) "/d" envW
    envW_consistent (by decide) (by decide)

/-- C2 witness: the theorem instantiated at the concrete directory. -/
theorem C2_witness :
    ∃ d : ClassificationDataset Nat,
      (from_folder (fun _ => (0 : Nat)) envW).1 = Except.ok d ∧
      d.dataset.length = envW.globPaths.length ∧
      ∀ i (hi : i < envW.globPaths.length) (hd : i < d.dataset.length),
        (d.dataset.get ⟨i, hd⟩).2
          = (label_names_of envW).indexOf
              (parent_name (envW.globPaths.get ⟨i, hi⟩)) :=
  C2_label_is_position_of_parent_in_sorted_names (fun _ => (0 : Nat)) "/d" envW
    envW_consistent (by decide) (by decide) (by decide)

/-- C3 witness: the theorem instantiated at the concrete directory. -/
theorem C3_witness :
    (label_names_of envW).Sorted (· ≤ ·) ∧
    (label_names_of envW).Perm (envW.listdir.filter envW.isdir) ∧
    (∀ i (hi : i < (label_names_of envW).length),
      index_by_label_of envW ((label_names_of envW).get ⟨i, hi⟩) = some i) ∧
    (∀ i j (hi : i < (label_names_of envW).length)
        (hj : j < (label_names_of envW).length),
      ((label_names_of envW).get ⟨i, hi⟩ < (label_names_of envW).get ⟨j, hj⟩ ↔ i < j)) ∧
    (∀ k i, index_by_label_of envW k = some i →
      k ∈ label_names_of envW ∧ i < (label_names_of envW).length) ∧
    (∀ k₁ k₂ i, index_by_label_of envW k₁ = some i →
      index_by_label_of envW k₂ = some i → k₁ = k₂) ∧
    (∀ i, i < (label_names_of envW).length →
      ∃ k ∈ label_names_of envW, index_by_label_of envW k = some i) :=
  C3_sorted_label_names_index_bijection envW (by decide)

/-- C5 witness: the theorem instantiated at the concrete directory. -/
theorem C5_witness :
    ((∃ msg, (from_folder (fun _ => (0 : Nat)) envW).1
        = Except.error (LoadError.valueError msg)) ↔
      (envW.globPaths = [] ∨
        (envW.globPaths ≠ [] ∧ envW.globPaths.any hasImageExt = false))) ∧
    ((envW.globPaths = [] ∨
        (envW.globPaths ≠ [] ∧ envW.globPaths.any hasImageExt = false)) →
      (from_folder (fun _ => (0 : Nat)) envW).2 = [] ∧
      ∀ d : ClassificationDataset Nat,
        (from_folder (fun _ => (0 : Nat)) envW).1 ≠ Except.ok d) :=
  C5_valueError_iff_empty_or_no_supported_ext (fun _ => (0 : Nat)) envW

/-- C6 witness: the theorem instantiated at the concrete directory, whose
glob list contains the unsupported path `/d/a/notes.txt`. -/
theorem C6_witness :
    (from_folder (fun _ => (0 : Nat)) envW).2 = envW.globPaths ∧
    ∀ d : ClassificationDataset Nat,
      (from_folder (fun _ => (0 : Nat)) envW).1 = Except.ok d →
      d.size = envW.globPaths.length :=
  C6_extension_check_is_not_a_filter (fun _ => (0 : Nat)) envW
    (by decide) (by decide)

/-- C7 witness: the theorem instantiated at the concrete directory. -/
theorem C7_witness :
    (∀ p ∈ envW.globPaths,
      ∃ i, index_by_label_of envW (parent_name p) = some i ∧
        i < (label_names_of envW).length) ∧
    ∀ (T : Type) (align : String → T) (d : ClassificationDataset T),
      (from_folder align envW).1 = Except.ok d →
      ∀ x ∈ d.dataset, x.2 < (label_names_of envW).length :=
  C7_label_lookup_never_fails "/d" envW envW_consistent

/-- C8 witness: two runs over the same directory content, with the listing
order and the alignment function varying but the observed state agreeing. -/
theorem C8_witness :
    from_folder (fun _ => (0 : Nat)) envW
      = from_folder (fun p => p.length - p.length) envW2 :=
  C8_deterministic_in_observed_state (fun _ => (0 : Nat))
    (fun p => p.length - p.length) envW envW2 rfl
    (by
      intro s
      have h1 : envW.listdir.filter envW.isdir = ["b", "a"] := rfl
      have h2 : envW2.listdir.filter envW2.isdir = ["a", "b"] := rfl
      rw [h1, h2]
      simp only [List.mem_cons, List.not_mem_nil, or_false]
      exact Or.comm)
    (by decide) (by decide)
    (by intro p hp; simp)

end FaceStylizer
